import Mathlib

/-!
Verification development for the `sweeper` staleness scanner and archive
planner (`src/lib.rs`).

Modelling conventions:
* Filesystem paths are lists of components (`Path := List String`); Rust's
  `Path::starts_with` is component-wise prefix, `file_name` is the last
  component, `join` is `++ [name]`.
* Timestamps (`SystemTime`) are seconds since the epoch as `Nat`; the epoch
  (`UNIX_EPOCH`) is `0`, the oldest representable timestamp of the model.
* `u64` arithmetic is `Nat` with explicit wrap-around `% 2 ^ 64` where the
  source performs an unchecked multiplication.
* Filesystem existence state is a finite list of existing paths; `p.exists()`
  is list membership.
* Fallible syscalls whose outcome the code branches on (canonicalize,
  read_dir, per-entry iteration, metadata) enter the model as `Option`-valued
  oracle inputs.
-/

namespace Sweeper

/-- A filesystem path, as its list of components. -/
abbrev Path := List String

/-- `name.starts_with('.')`: whether the first character of a name is a
dot (the scanner's hidden-directory convention). -/
def startsWithDot (s : String) : Bool :=
  match s.data with
  | [] => false
  | c :: _ => c = '.'

/-- Decimal digit characters, as produced by Rust's `Display` for `u64`
(and by `Nat.digitChar` for values below 10). -/
def digitChar (d : Nat) : Char := Nat.digitChar d

/-- Numeric value of a decimal digit character. -/
def digitVal (c : Char) : Nat := c.toNat - 48

/-- Digits of `n` in base 10, most significant first, empty for `0`.
`fuel` is a structural-recursion bound; any `fuel ≥ n` gives the digits. -/
def decDigitsAux : Nat → Nat → List Char
  | 0, _ => []
  | _ + 1, 0 => []
  | fuel + 1, n + 1 => decDigitsAux fuel ((n + 1) / 10) ++ [digitChar ((n + 1) % 10)]

/-- Decimal string for a `u64`, exactly as Rust's `format!("{}", n)` prints
it: no leading zeros, and `"0"` for zero. -/
def decRepr (n : Nat) : String :=
  if n = 0 then "0" else String.mk (decDigitsAux n n)

/-- Value of a decimal digit string, most significant first. -/
def decVal (l : List Char) : Nat := l.foldl (fun a c => 10 * a + digitVal c) 0

/-- Appending the string `"_" ++ decRepr i` to the textual form of a path:
`PathBuf::from(format!("{}_{}", target.display(), i))`. Since components
contain no separator, this appends to the last component (and produces a
single fresh component for the empty path). -/
def Path.withSuffix : Path → Nat → Path
  | [], i => ["_" ++ decRepr i]
  | [a], i => [a ++ "_" ++ decRepr i]
  | a :: b :: rest, i => a :: Path.withSuffix (b :: rest) i

/-- The `i`-th collision-avoidance candidate for `target`. -/
def candidate (target : Path) (i : Nat) : Path := Path.withSuffix target i

/-- The counter loop of `avoid_collision`: starting at counter `i`, return
the first candidate not in `fs`. `fuel` is a structural bound only; it is
chosen large enough that it is never exhausted (see
`avoidLoop_spec` / `exists_candidate_not_mem`). -/
def avoidLoop (fs : List Path) (target : Path) : Nat → Nat → Path
  | 0, i => candidate target i
  | fuel + 1, i =>
    if candidate target i ∈ fs then avoidLoop fs target fuel (i + 1)
    else candidate target i

/-- `fn avoid_collision(target: &Path) -> PathBuf` from `src/lib.rs`, with
the filesystem existence state `fs` made explicit: if `target` does not
exist it is returned unchanged, otherwise candidates `target_1`, `target_2`,
… are tried in order and the first one that does not exist is returned. -/
def avoid_collision (fs : List Path) (target : Path) : Path :=
  if target ∈ fs then avoidLoop fs target (fs.length + 1) 1 else target

/-- `struct ProjectItem { path: PathBuf, last_modified: SystemTime }`. -/
structure ProjectItem where
  path : Path
  last_modified : Nat
deriving DecidableEq

/-- `struct ScanReport` from `src/lib.rs`. -/
structure ScanReport where
  root : Path
  older_than_days : Nat
  stale : List ProjectItem
  fresh : List ProjectItem
  scanned_count : Nat
deriving DecidableEq

/-- `struct ArchiveMove { from: PathBuf, to: PathBuf }`. -/
structure ArchiveMove where
  «from» : Path
  «to» : Path
deriving DecidableEq

/-- `struct ArchivePlan` from `src/lib.rs`. -/
structure ArchivePlan where
  dest_root : Path
  month_bucket : String
  moves : List ArchiveMove
deriving DecidableEq

/-- A filesystem subtree as observed by the traversal syscalls: each node
carries the outcome of stat-ing it (`none` = stat failed, `some t` =
modification time `t`), whether its children can be listed, and its
children. Files are nodes with no children. -/
inductive FsTree where
  | node (stat : Option Nat) (listable : Bool) (children : List FsTree)

/-- Stat outcome of an `FsTree` node. -/
def FsTree.stat : FsTree → Option Nat
  | .node s _ _ => s

mutual
/-- The entries yielded by `WalkDir::new(dir).max_depth(3)`, each with its
metadata outcome, in depth-first order. `depthLeft` counts the remaining
levels the walk may descend (3 at the root); entries of an unlistable
directory are skipped (walkdir yields the read error, which
`filter_map(|x| x.ok())` drops). -/
def walkTree : FsTree → Nat → List (Option Nat)
  | .node stat listable children, depthLeft =>
    stat :: (if listable ∧ 0 < depthLeft then walkForest children (depthLeft - 1) else [])

/-- Depth-first walk of a list of sibling subtrees. -/
def walkForest : List FsTree → Nat → List (Option Nat)
  | [], _ => []
  | t :: ts, d => walkTree t d ++ walkForest ts d
end

/-- The accumulator update of the `newest` loop in `newest_mtime_in_tree`:
entries whose metadata (or creation) failed are skipped, otherwise the
running maximum is updated. -/
def newestStep (newest : Option Nat) (mt : Option Nat) : Option Nat :=
  match mt with
  | none => newest
  | some mtime =>
    match newest with
    | none => some mtime
    | some cur => some (max cur mtime)

/-- `fn newest_mtime_in_tree(dir: &Path) -> Option<SystemTime>` from
`src/lib.rs`: fold the walk's entries, skipping failed stats, keeping the
maximum modification time. -/
def newest_mtime_in_tree (dir : FsTree) : Option Nat :=
  (walkTree dir 3).foldl newestStep none

/-- Modification times of the successfully stat-ed entries visited by the
depth-bounded walk (spec side, §4.1: the entries the resolver's maximum
ranges over). -/
def visitedStats (dir : FsTree) : List Nat :=
  (walkTree dir 3).filterMap id

mutual
/-- Prune a tree below a remaining depth, keeping node data. -/
def truncateTree : FsTree → Nat → FsTree
  | .node stat listable _, 0 => .node stat listable []
  | .node stat listable children, d + 1 => .node stat listable (truncateForest children d)

/-- Prune each subtree in a forest. -/
def truncateForest : List FsTree → Nat → List FsTree
  | [], _ => []
  | t :: ts, d => truncateTree t d :: truncateForest ts d
end

/-- One immediate child of the scanned root as observed by the scanner's
syscalls: its name (as yielded by `read_dir`, so the child's path is
`root.join(name)`), the outcome of `path.is_dir()` (`false` also when the
underlying stat fails), the subtree visible to `newest_mtime_in_tree`, and
the outcome of `fs::metadata(&path).and_then(|m| m.modified())`. -/
structure ChildEntry where
  name : String
  isDir : Bool
  tree : FsTree
  metaMtime : Option Nat

/-- The distinct top-level failures of `scan_projects`: root
canonicalization, cutoff arithmetic, opening the root listing, and an error
yielded by the listing iterator for one entry (propagated by the
`let entry = entry?;` line). -/
inductive ScanError where
  | canonFailed
  | computeCutoff
  | readDirFailed
  | childEntryFailed
deriving DecidableEq

/-- Lines 70–75 of `src/lib.rs`: the effective timestamp of a child
directory. `newest_mtime_in_tree`, else the directory's own metadata
modification time, else `UNIX_EPOCH` (`0`). -/
def effectiveMtime (e : ChildEntry) : Nat :=
  (newest_mtime_in_tree e.tree).getD (e.metaMtime.getD 0)

/-- The `for entry in fs::read_dir(..)` loop of `scan_projects`. Each list
element is the iterator's outcome for one entry (`none` = the iterator
yielded an `Err`, which `entry?` propagates). Returns the stale items, the
fresh items (each in encounter order) and `scanned_count`. -/
def scanLoop (root : Path) (cutoff : Nat) :
    List (Option ChildEntry) → Except ScanError (List ProjectItem × List ProjectItem × Nat)
  | [] => .ok ([], [], 0)
  | none :: _ => .error .childEntryFailed
  | some e :: rest =>
    if e.isDir = false then scanLoop root cutoff rest
    else if startsWithDot e.name then scanLoop root cutoff rest
    else
      match scanLoop root cutoff rest with
      | .error err => .error err
      | .ok (s, f, c) =>
        let lm := effectiveMtime e
        let item : ProjectItem := ⟨root ++ [e.name], lm⟩
        if lm ≤ cutoff then .ok (item :: s, f, c + 1) else .ok (s, item :: f, c + 1)

/-- Insert an item into a list sorted ascending by `last_modified`, after
all items with an equal or smaller key (stability). -/
def insertByKey (x : ProjectItem) : List ProjectItem → List ProjectItem
  | [] => [x]
  | y :: ys =>
    if x.last_modified ≤ y.last_modified then x :: y :: ys else y :: insertByKey x ys

/-- `stale.sort_by_key(|p| p.last_modified)`: a stable sort ascending by
`last_modified`, modelled as insertion sort (which realizes exactly the
stable-sort contract of `Vec::sort_by_key`). -/
def sortByMtime : List ProjectItem → List ProjectItem
  | [] => []
  | x :: xs => insertByKey x (sortByMtime xs)

/-- The seconds value of `Duration::from_secs(older_than_days * 24 * 60 * 60)`:
an unchecked `u64` multiplication, which wraps modulo `2 ^ 64`. -/
def cutoffSecs (older_than_days : Nat) : Nat :=
  older_than_days * 24 * 60 * 60 % 2 ^ 64

/-- `fn scan_projects(root: &Path, older_than_days: u64) -> Result<ScanReport>`
from `src/lib.rs`. The syscall outcomes enter as oracle inputs: `now` is
`SystemTime::now()`, `canonRoot` the outcome of `root.canonicalize()`, and
`listing` the outcome of `fs::read_dir(&root)` (with each yielded entry's
own outcome inside). `SystemTime::checked_sub` fails exactly on underflow
below the model's representable minimum `0`. -/
def scan_projects (now : Nat) (canonRoot : Option Path)
    (listing : Option (List (Option ChildEntry))) (older_than_days : Nat) :
    Except ScanError ScanReport :=
  match canonRoot with
  | none => .error .canonFailed
  | some root =>
    if now < cutoffSecs older_than_days then .error .computeCutoff
    else
      match listing with
      | none => .error .readDirFailed
      | some entries =>
        match scanLoop root (now - cutoffSecs older_than_days) entries with
        | .error e => .error e
        | .ok (stale, fresh, scanned) =>
          .ok ⟨root, older_than_days, sortByMtime stale, fresh, scanned⟩

/-- The children the scanner classifies (spec side, §4.2): entries whose
iteration succeeded, that are directories, and that are not hidden. -/
def processedEntries (l : List (Option ChildEntry)) : List ChildEntry :=
  (l.filterMap id).filter fun e => e.isDir && !(startsWithDot e.name)

/-- The `ProjectItem` the scanner builds for a processed child. -/
def itemOf (root : Path) (e : ChildEntry) : ProjectItem :=
  ⟨root ++ [e.name], effectiveMtime e⟩

/-- The ordered fallback chain of §4.2 (spec side): the resolver's
recursive maximum; if it returns `none`, the directory's own metadata
modification time; if that also fails, the oldest representable
timestamp. -/
def fallbackChain (e : ChildEntry) : Nat :=
  match newest_mtime_in_tree e.tree with
  | some m => m
  | none =>
    match e.metaMtime with
    | some m => m
    | none => 0

/-- The `for item in &report.stale` loop of `build_archive_plan`:
self-contained items (whose path starts with the destination root,
component-wise as `Path::starts_with`) are skipped; otherwise the
destination is `bucket_dir.join(name)` run through `avoid_collision`. -/
def planMoves (fs : List Path) (dest bucketDir : Path) : List ProjectItem → List ArchiveMove
  | [] => []
  | item :: rest =>
    if dest.isPrefixOf item.path then planMoves fs dest bucketDir rest
    else
      ⟨item.path,
        avoid_collision fs (bucketDir ++ [(item.path.getLast?).getD "unknown"])⟩ ::
      planMoves fs dest bucketDir rest

/-- `fn build_archive_plan(report: &ScanReport, dest_root: &Path) ->
Result<ArchivePlan>` from `src/lib.rs`. `canonDest` is the outcome of
`dest_root.canonicalize()` (`none` = failed, fall back to the path as
given); `bucket` is the `"%Y-%m"` rendering of `Local::now()`; `fs` is the
filesystem existence state `avoid_collision` consults. The Rust function
always returns `Ok`, so the model returns the plan directly. -/
def build_archive_plan (fs : List Path) (canonDest : Option Path) (dest_root : Path)
    (bucket : String) (report : ScanReport) : ArchivePlan :=
  let dest := canonDest.getD dest_root
  ⟨dest, bucket, planMoves fs dest (dest ++ [bucket]) report.stale⟩

/-- The filesystem mutation primitives `apply_archive_plan` uses, as state
transformers over an abstract filesystem state `σ`: each returns the state
after the syscall (reflecting any partial effect) and whether it
succeeded. -/
structure FsOps (σ : Type) where
  createDirAll : σ → Path → σ × Bool
  rename : σ → Path → Path → σ × Bool

/-- The error `apply_archive_plan` returns, identifying the failing move
and the operation that failed (the `with_context` messages of lines
163–174 of `src/lib.rs`). -/
inductive ExecError where
  | createDirFailed (mv : ArchiveMove)
  | renameFailed (mv : ArchiveMove)
deriving DecidableEq

/-- `Path::parent`: `none` for an empty path, otherwise the path without
its last component. -/
def Path.parent? : Path → Option Path
  | [] => none
  | p => some p.dropLast

/-- One iteration of the `for mv in &plan.moves` loop: create the
destination's parent directory (with ancestors) when the destination has a
parent, then rename; stop with an error naming the move on the first
failure. -/
def applyMove {σ : Type} (ops : FsOps σ) (s : σ) (mv : ArchiveMove) : σ × Option ExecError :=
  match Path.parent? mv.to with
  | some par =>
    if (ops.createDirAll s par).2 then
      if (ops.rename (ops.createDirAll s par).1 mv.«from» mv.to).2 then
        ((ops.rename (ops.createDirAll s par).1 mv.«from» mv.to).1, none)
      else ((ops.rename (ops.createDirAll s par).1 mv.«from» mv.to).1, some (.renameFailed mv))
    else ((ops.createDirAll s par).1, some (.createDirFailed mv))
  | none =>
    if (ops.rename s mv.«from» mv.to).2 then ((ops.rename s mv.«from» mv.to).1, none)
    else ((ops.rename s mv.«from» mv.to).1, some (.renameFailed mv))

/-- `fn apply_archive_plan(plan: &ArchivePlan) -> Result<()>` from
`src/lib.rs`, over the abstract mutation primitives: moves are applied in
sequence order and the first failure aborts the rest. The returned state is
the filesystem state when the function returns (prior moves stay
applied). -/
def apply_archive_plan {σ : Type} (ops : FsOps σ) (s : σ) :
    List ArchiveMove → σ × Option ExecError
  | [] => (s, none)
  | mv :: rest =>
    match applyMove ops s mv with
    | (s1, none) => apply_archive_plan ops s1 rest
    | (s1, some e) => (s1, some e)

theorem digitVal_digitChar {d : Nat} (h : d < 10) : digitVal (digitChar d) = d := by
  interval_cases d <;> decide

theorem decVal_append_digit (l : List Char) (c : Char) :
    decVal (l ++ [c]) = 10 * decVal l + digitVal c := by
  simp [decVal, List.foldl_append]

theorem decVal_decDigitsAux : ∀ fuel n, n ≤ fuel → decVal (decDigitsAux fuel n) = n := by
  intro fuel
  induction fuel with
  | zero => intro n hn; simp [Nat.le_zero.mp hn, decDigitsAux, decVal]
  | succ f ih =>
    intro n hn
    match n with
    | 0 => simp [decDigitsAux, decVal]
    | m + 1 =>
      have hdiv : (m + 1) / 10 ≤ f := by
        have h1 : (m + 1) / 10 < m + 1 := Nat.div_lt_self (Nat.succ_pos m) (by decide)
        omega
      rw [decDigitsAux, decVal_append_digit, ih _ hdiv,
        digitVal_digitChar (Nat.mod_lt _ (by decide))]
      omega

/-- Round trip: the decimal value of `decRepr n` is `n`. -/
theorem decVal_decRepr (n : Nat) : decVal (decRepr n).data = n := by
  unfold decRepr
  by_cases h : n = 0
  · subst h; decide
  · simp only [h, if_false]
    exact decVal_decDigitsAux n n le_rfl

/-- Rust's decimal printing of `u64` is injective. -/
theorem decRepr_injective : Function.Injective decRepr := by
  intro m n h
  have := decVal_decRepr m
  rw [h, decVal_decRepr] at this
  omega

theorem String.append_cancel_left {s a b : String} (h : s ++ a = s ++ b) : a = b := by
  apply String.ext
  have hd : s.data ++ a.data = s.data ++ b.data := by
    have h1 := congrArg String.data h
    simpa [String.data_append] using h1
  exact List.append_cancel_left hd

theorem Path.withSuffix_injective (p : Path) {i j : Nat}
    (h : Path.withSuffix p i = Path.withSuffix p j) : i = j := by
  induction p with
  | nil =>
    simp only [Path.withSuffix, List.cons.injEq, and_true] at h
    exact decRepr_injective (String.append_cancel_left h)
  | cons a rest ih =>
    match rest with
    | [] =>
      simp only [Path.withSuffix, List.cons.injEq, and_true] at h
      have h2 : (a ++ "_") ++ decRepr i = (a ++ "_") ++ decRepr j := by
        simpa [String.append_assoc] using h
      exact decRepr_injective (String.append_cancel_left h2)
    | b :: rest2 =>
      simp only [Path.withSuffix, List.cons.injEq, true_and] at h
      exact ih h

theorem Path.withSuffix_ne_self (p : Path) (i : Nat) : Path.withSuffix p i ≠ p := by
  induction p with
  | nil => simp [Path.withSuffix]
  | cons a rest ih =>
    match rest with
    | [] =>
      simp only [Path.withSuffix, ne_eq, List.cons.injEq, and_true]
      intro h
      have h2 := congrArg String.length h
      simp [String.length_append] at h2
      have h3 : "_".length = 1 := rfl
      omega
    | b :: rest2 =>
      simp only [Path.withSuffix, ne_eq, List.cons.injEq, true_and]
      exact ih

/-- In any counter window wider than the filesystem, some candidate is
unused (candidates are pairwise distinct, the filesystem is finite). -/
theorem exists_candidate_not_mem (fs : List Path) (target : Path) (i : Nat) :
    ∃ j, i ≤ j ∧ j < i + (fs.length + 1) ∧ candidate target j ∉ fs := by
  by_contra hall
  push_neg at hall
  have hsub : (Finset.Icc i (i + fs.length)).image (candidate target) ⊆ fs.toFinset := by
    intro x hx
    obtain ⟨j, hj, rfl⟩ := Finset.mem_image.mp hx
    rw [Finset.mem_Icc] at hj
    exact List.mem_toFinset.mpr (hall j hj.1 (by omega))
  have hcard : (Finset.Icc i (i + fs.length)).card = fs.length + 1 := by
    rw [Nat.card_Icc]; omega
  have hinj : Set.InjOn (candidate target) (Finset.Icc i (i + fs.length)) := by
    intro a _ b _ hab
    exact Path.withSuffix_injective target hab
  have h1 : fs.length + 1 ≤ fs.toFinset.card := by
    calc fs.length + 1 = (Finset.Icc i (i + fs.length)).card := hcard.symm
    _ = ((Finset.Icc i (i + fs.length)).image (candidate target)).card :=
        (Finset.card_image_of_injOn hinj).symm
    _ ≤ fs.toFinset.card := Finset.card_le_card hsub
  have h2 : fs.toFinset.card ≤ fs.length := fs.toFinset_card_le
  omega

/-- The loop returns the first free candidate at or after the starting
counter, provided some candidate in the fuel window is free. -/
theorem avoidLoop_spec (fs : List Path) (target : Path) :
    ∀ fuel i, (∃ j, i ≤ j ∧ j < i + fuel ∧ candidate target j ∉ fs) →
      ∃ N, i ≤ N ∧ avoidLoop fs target fuel i = candidate target N ∧
        candidate target N ∉ fs ∧ ∀ k, i ≤ k → k < N → candidate target k ∈ fs := by
  intro fuel
  induction fuel with
  | zero =>
    intro i ⟨j, hij, hj, _⟩
    omega
  | succ f ih =>
    intro i ⟨j, hij, hj, hfree⟩
    by_cases hmem : candidate target i ∈ fs
    · have hne : j ≠ i := fun h => hfree (h ▸ hmem)
      obtain ⟨N, hN1, hN2, hN3, hN4⟩ := ih (i + 1) ⟨j, by omega, by omega, hfree⟩
      refine ⟨N, by omega, ?_, hN3, ?_⟩
      · simp [avoidLoop, hmem, hN2]
      · intro k hk1 hk2
        rcases Nat.eq_or_lt_of_le hk1 with h | h
        · exact h ▸ hmem
        · exact hN4 k h hk2
    · exact ⟨i, le_rfl, by simp [avoidLoop, hmem], hmem, fun k h1 h2 => absurd (lt_of_le_of_lt h1 h2) (lt_irrefl i)⟩

/-- `List.max?` on naturals returns exactly the greatest element. -/
theorem natMax?_eq_some_iff {L : List Nat} {m : Nat} :
    L.max? = some m ↔ m ∈ L ∧ ∀ x ∈ L, x ≤ m :=
  List.max?_eq_some_iff (fun a => le_refl a) (fun a b => max_choice a b)
    (fun _ _ _ => max_le_iff)

/-- The newest-mtime fold equals the library maximum of the accumulator
joined with the successfully stat-ed entries. -/
theorem foldl_newestStep_eq :
    ∀ (l : List (Option Nat)) (acc : Option Nat),
      l.foldl newestStep acc = (acc.toList ++ l.filterMap id).max? := by
  intro l
  induction l with
  | nil =>
    intro acc
    cases acc <;> simp [List.max?]
  | cons x xs ih =>
    intro acc
    match x with
    | none =>
      simp only [List.foldl_cons, List.filterMap_cons_none]
      exact ih acc
    | some m =>
      simp only [List.foldl_cons, List.filterMap_cons_some]
      rw [ih (newestStep acc (some m))]
      cases acc with
      | none => rfl
      | some a =>
        simp only [newestStep, Option.toList_some, List.cons_append, List.nil_append]
        rfl

mutual
/-- Pruning a tree at the walk's remaining depth does not change what the
depth-bounded walk yields. -/
theorem walkTree_truncate (t : FsTree) (d : Nat) :
    walkTree (truncateTree t d) d = walkTree t d :=
  match t, d with
  | .node s l cs, 0 => by simp [truncateTree, walkTree]
  | .node s l cs, d + 1 => by
    simp only [truncateTree, walkTree, Nat.add_sub_cancel]
    by_cases hl : l
    · simp only [hl, true_and, Nat.zero_lt_succ, if_true, walkForest_truncate cs d]
    · simp [hl]

/-- Forest version of `walkTree_truncate`. -/
theorem walkForest_truncate (ts : List FsTree) (d : Nat) :
    walkForest (truncateForest ts d) d = walkForest ts d :=
  match ts with
  | [] => by simp [truncateForest, walkForest]
  | t :: rest => by
    simp only [truncateForest, walkForest, Nat.add_sub_cancel]
    rw [walkTree_truncate t d, walkForest_truncate rest d]
end

/-- The newest-mtime fold over the walk is the library maximum of the
successfully stat-ed visited entries. -/
theorem newest_mtime_in_tree_eq_max? (t : FsTree) :
    newest_mtime_in_tree t = (visitedStats t).max? := by
  unfold newest_mtime_in_tree visitedStats
  rw [foldl_newestStep_eq]
  rfl

theorem mem_insertByKey {x a : ProjectItem} :
    ∀ {l : List ProjectItem}, a ∈ insertByKey x l ↔ a = x ∨ a ∈ l := by
  intro l
  induction l with
  | nil => simp [insertByKey]
  | cons y ys ih =>
    by_cases hc : x.last_modified ≤ y.last_modified
    · simp [insertByKey, hc]
    · simp only [insertByKey, hc, if_false, List.mem_cons, ih]
      tauto

theorem length_insertByKey (x : ProjectItem) :
    ∀ l : List ProjectItem, (insertByKey x l).length = l.length + 1 := by
  intro l
  induction l with
  | nil => rfl
  | cons y ys ih =>
    by_cases hc : x.last_modified ≤ y.last_modified
    · simp [insertByKey, hc]
    · simp [insertByKey, hc, ih]

theorem mem_sortByMtime {a : ProjectItem} :
    ∀ {l : List ProjectItem}, a ∈ sortByMtime l ↔ a ∈ l := by
  intro l
  induction l with
  | nil => simp [sortByMtime]
  | cons y ys ih => simp [sortByMtime, mem_insertByKey, ih]

theorem length_sortByMtime :
    ∀ l : List ProjectItem, (sortByMtime l).length = l.length := by
  intro l
  induction l with
  | nil => rfl
  | cons y ys ih => simp [sortByMtime, length_insertByKey, ih]

/-- What the scanner's loop computes when the listing iterator yields no
errors: the processed children, classified against the cutoff, with
`scanned_count` their number. -/
theorem scanLoop_eq (root : Path) (cutoff : Nat) :
    ∀ l : List (Option ChildEntry), (∀ x ∈ l, x ≠ none) →
      scanLoop root cutoff l = .ok
        (((processedEntries l).map (itemOf root)).filter
            (fun it => decide (it.last_modified ≤ cutoff)),
         ((processedEntries l).map (itemOf root)).filter
            (fun it => !decide (it.last_modified ≤ cutoff)),
         (processedEntries l).length) := by
  intro l
  induction l with
  | nil => intro _; simp [scanLoop, processedEntries]
  | cons x rest ih =>
    intro h
    have hrest : ∀ y ∈ rest, y ≠ none := fun y hy => h y (List.mem_cons_of_mem _ hy)
    match x with
    | none => exact absurd rfl (h none (List.mem_cons_self _ _))
    | some e =>
      by_cases hdir : e.isDir = false
      · have hp : processedEntries (some e :: rest) = processedEntries rest := by
          simp [processedEntries, hdir]
        rw [hp, ← ih hrest]
        simp [scanLoop, hdir]
      · by_cases hhid : startsWithDot e.name = true
        · have hp : processedEntries (some e :: rest) = processedEntries rest := by
            simp [processedEntries, hhid]
          rw [hp, ← ih hrest]
          simp [scanLoop, hdir, hhid]
        · have hdt : e.isDir = true := by simpa using hdir
          have hht : startsWithDot e.name = false := by simpa using hhid
          have hp : processedEntries (some e :: rest) = e :: processedEntries rest := by
            simp [processedEntries, hdt, hht]
          rw [hp]
          simp only [scanLoop, hdir, if_false, hhid, ih hrest, List.map_cons,
            List.filter_cons, List.length_cons]
          by_cases hcl : effectiveMtime e ≤ cutoff
          · simp [itemOf, hcl]
          · simp [itemOf, hcl]

/-- `scan_projects` on a listing whose iterator yields no errors, with the
cutoff subtraction in range: the report, explicitly. -/
theorem scan_projects_eq (now : Nat) (root : Path) (entries : List (Option ChildEntry))
    (d : Nat) (hok : ∀ x ∈ entries, x ≠ none) (hcut : cutoffSecs d ≤ now) :
    scan_projects now (some root) (some entries) d = .ok
      ⟨root, d,
       sortByMtime (((processedEntries entries).map (itemOf root)).filter
           (fun it => decide (it.last_modified ≤ now - cutoffSecs d))),
       ((processedEntries entries).map (itemOf root)).filter
           (fun it => !decide (it.last_modified ≤ now - cutoffSecs d)),
       (processedEntries entries).length⟩ := by
  simp only [scan_projects]
  rw [if_neg (by omega), scanLoop_eq root _ entries hok]

/-- Every move produced by the planner loop comes from a non-self-contained
stale item, with the collision-avoided bucket destination. -/
theorem mem_planMoves {fs : List Path} {dest bucketDir : Path} :
    ∀ {items : List ProjectItem} {mv : ArchiveMove}, mv ∈ planMoves fs dest bucketDir items →
      ∃ item ∈ items, dest.isPrefixOf item.path = false ∧
        mv = ⟨item.path,
          avoid_collision fs (bucketDir ++ [(item.path.getLast?).getD "unknown"])⟩ := by
  intro items
  induction items with
  | nil => intro mv h; cases h
  | cons item rest ih =>
    intro mv h
    rw [planMoves] at h
    by_cases hp : dest.isPrefixOf item.path = true
    · rw [if_pos hp] at h
      obtain ⟨it, hmem, hpre, heq⟩ := ih h
      exact ⟨it, List.mem_cons_of_mem _ hmem, hpre, heq⟩
    · have hfalse : dest.isPrefixOf item.path = false := by
        cases hpc : dest.isPrefixOf item.path
        · rfl
        · exact absurd hpc hp
      rw [if_neg hp] at h
      rcases List.mem_cons.mp h with heq | hm
      · exact ⟨item, List.mem_cons_self _ _, hfalse, heq⟩
      · obtain ⟨it, hmem, hpre, heq⟩ := ih hm
        exact ⟨it, List.mem_cons_of_mem _ hmem, hpre, heq⟩

/-- If every stale item is under the destination root, the planner loop
produces no moves. -/
theorem planMoves_nil_of_all_under {fs : List Path} {dest bucketDir : Path} :
    ∀ {items : List ProjectItem}, (∀ item ∈ items, dest.isPrefixOf item.path = true) →
      planMoves fs dest bucketDir items = [] := by
  intro items
  induction items with
  | nil => intro _; rfl
  | cons item rest ih =>
    intro h
    simp only [planMoves, h item (List.mem_cons_self _ _), if_true]
    exact ih fun it hit => h it (List.mem_cons_of_mem _ hit)

/-- A failing `applyMove` reports the very move it was given. -/
theorem applyMove_error_identifies {σ : Type} (ops : FsOps σ) (s : σ) (mv : ArchiveMove)
    {s2 : σ} {e : ExecError} (h : applyMove ops s mv = (s2, some e)) :
    e = .createDirFailed mv ∨ e = .renameFailed mv := by
  unfold applyMove at h
  split at h
  · split at h
    · split at h
      · exact absurd (congrArg Prod.snd h) (by simp)
      · right
        have hs := congrArg Prod.snd h
        simpa using hs.symm
    · left
      have hs := congrArg Prod.snd h
      simpa using hs.symm
  · split at h
    · exact absurd (congrArg Prod.snd h) (by simp)
    · right
      have hs := congrArg Prod.snd h
      simpa using hs.symm

/-- Fail-fast shape of the executor: if the moves before `mv` all succeed
(threading the state) and `mv` fails, the whole run returns `mv`'s error
and the state reached, regardless of the moves after `mv`. -/
theorem apply_archive_plan_append_fail {σ : Type} (ops : FsOps σ) :
    ∀ (pre : List ArchiveMove) (s s1 s2 : σ) (mv : ArchiveMove) (post : List ArchiveMove)
      (e : ExecError),
      apply_archive_plan ops s pre = (s1, none) →
      applyMove ops s1 mv = (s2, some e) →
      apply_archive_plan ops s (pre ++ mv :: post) = (s2, some e) := by
  intro pre
  induction pre with
  | nil =>
    intro s s1 s2 mv post e hpre hfail
    have hs : s = s1 := by
      have h1 := congrArg Prod.fst hpre
      simpa [apply_archive_plan] using h1
    subst hs
    simp only [List.nil_append, apply_archive_plan, hfail]
  | cons m rest ih =>
    intro s s1 s2 mv post e hpre hfail
    rw [apply_archive_plan] at hpre
    rcases hm : applyMove ops s m with ⟨t, oe⟩
    rw [hm] at hpre
    match oe with
    | some e2 => exact absurd (congrArg Prod.snd hpre) (by simp)
    | none =>
      rw [List.cons_append, apply_archive_plan, hm]
      exact ih t s1 s2 mv post e hpre hfail

/-- If the scanner's loop succeeds, no listing entry was an iterator
error. -/
theorem scanLoop_ok_no_none {root : Path} {cutoff : Nat} :
    ∀ {l : List (Option ChildEntry)}
      {t : List ProjectItem × List ProjectItem × Nat},
      scanLoop root cutoff l = .ok t → ∀ x ∈ l, x ≠ none := by
  intro l
  induction l with
  | nil => intro t _ x hx; cases hx
  | cons y rest ih =>
    intro t h x hx
    match y with
    | none => rw [scanLoop] at h; cases h
    | some e =>
      rw [scanLoop] at h
      rcases List.mem_cons.mp hx with rfl | hxr
      · simp
      · by_cases hdir : e.isDir = false
        · rw [if_pos hdir] at h
          exact ih h x hxr
        · rw [if_neg hdir] at h
          by_cases hhid : startsWithDot e.name = true
          · rw [if_pos hhid] at h
            exact ih h x hxr
          · rw [if_neg hhid] at h
            rcases hrec : scanLoop root cutoff rest with err | trip
            · rw [hrec] at h; cases h
            · exact ih hrec x hxr

/-- Inversion of a successful scan: the oracles must have been `some`, the
cutoff subtraction in range, the listing error-free, and the report is the
explicit classification of the processed children. -/
theorem scan_projects_ok_inv {now : Nat} {canon : Option Path}
    {listing : Option (List (Option ChildEntry))} {d : Nat} {r : ScanReport}
    (h : scan_projects now canon listing d = .ok r) :
    ∃ root entries, canon = some root ∧ listing = some entries ∧
      (∀ x ∈ entries, x ≠ none) ∧ cutoffSecs d ≤ now ∧
      r = ⟨root, d,
        sortByMtime (((processedEntries entries).map (itemOf root)).filter
            (fun it => decide (it.last_modified ≤ now - cutoffSecs d))),
        ((processedEntries entries).map (itemOf root)).filter
            (fun it => !decide (it.last_modified ≤ now - cutoffSecs d)),
        (processedEntries entries).length⟩ := by
  match canon with
  | none => rw [scan_projects] at h; cases h
  | some root =>
    match listing with
    | none =>
      simp only [scan_projects] at h
      split at h
      · cases h
      · cases h
    | some entries =>
      have hct : ¬ now < cutoffSecs d := by
        intro hlt
        rw [scan_projects, if_pos hlt] at h
        cases h
      have h2 := h
      simp only [scan_projects, if_neg hct] at h2
      rcases hrec : scanLoop root (now - cutoffSecs d) entries with err | trip
      · rw [hrec] at h2; cases h2
      · have hnn := scanLoop_ok_no_none hrec
        rw [scan_projects_eq now root entries d hnn (le_of_not_lt hct)] at h
        exact ⟨root, entries, rfl, rfl, hnn, le_of_not_lt hct,
          ((Except.ok.injEq _ _).mp h).symm⟩

theorem mem_processedEntries {e : ChildEntry} {l : List (Option ChildEntry)} :
    e ∈ processedEntries l ↔
      some e ∈ l ∧ e.isDir = true ∧ startsWithDot e.name = false := by
  simp only [processedEntries, List.mem_filter, List.mem_filterMap, Bool.and_eq_true,
    Bool.not_eq_true']
  constructor
  · rintro ⟨⟨x, hx, hxe⟩, hdir, hhid⟩
    exact ⟨hxe ▸ hx, hdir, hhid⟩
  · rintro ⟨hmem, hdir, hhid⟩
    exact ⟨⟨some e, hmem, rfl⟩, hdir, hhid⟩

/-- Every item a successful scan reports comes from a non-hidden directory
child of the listing, built by `itemOf` (path `root.join(name)`, effective
timestamp). -/
theorem scan_item_origin {now : Nat} {canon : Option Path}
    {listing : Option (List (Option ChildEntry))} {d : Nat} {r : ScanReport}
    (h : scan_projects now canon listing d = .ok r) :
    ∀ item, (item ∈ r.stale ∨ item ∈ r.fresh) →
      ∃ entries e, listing = some entries ∧ some e ∈ entries ∧
        e.isDir = true ∧ startsWithDot e.name = false ∧ item = itemOf r.root e := by
  obtain ⟨root, entries, hcanon, hlist, hnn, hcut, hr⟩ := scan_projects_ok_inv h
  subst hr
  intro item hitem
  have hmap : item ∈ (processedEntries entries).map (itemOf root) := by
    rcases hitem with hs | hf
    · simp only at hs
      have := mem_sortByMtime.mp hs
      exact (List.mem_filter.mp this).1
    · simp only at hf
      exact (List.mem_filter.mp hf).1
  obtain ⟨e, he, heq⟩ := List.mem_map.mp hmap
  obtain ⟨hmem, hdir, hhid⟩ := mem_processedEntries.mp he
  exact ⟨entries, e, hlist, hmem, hdir, hhid, heq.symm⟩

/-- A filter and its negation partition a list's length. -/
theorem length_filter_partition {α : Type} (p : α → Bool) (l : List α) :
    (l.filter p).length + (l.filter fun a => !(p a)).length = l.length := by
  induction l with
  | nil => rfl
  | cons x xs ih =>
    by_cases hx : p x = true
    · simp [List.filter_cons, hx]
      omega
    · have hx2 : p x = false := by
        cases hpc : p x
        · rfl
        · exact absurd hpc hx
      simp [List.filter_cons, hx2]
      omega

/-- Unfolding the loop at a successfully recursed non-skipped child: the
result is the classification branch. -/
theorem scanLoop_cons_ok {root : Path} {cutoff : Nat} {e : ChildEntry}
    {rest : List (Option ChildEntry)} {s f : List ProjectItem} {c : Nat}
    (hdir : ¬ e.isDir = false) (hhid : ¬ startsWithDot e.name = true)
    (hrec : scanLoop root cutoff rest = .ok (s, f, c)) :
    scanLoop root cutoff (some e :: rest) =
      if effectiveMtime e ≤ cutoff
      then .ok (⟨root ++ [e.name], effectiveMtime e⟩ :: s, f, c + 1)
      else .ok (s, ⟨root ++ [e.name], effectiveMtime e⟩ :: f, c + 1) := by
  rw [scanLoop, if_neg hdir, if_neg hhid, hrec]

/-- The scanner's loop can only fail with the per-entry iterator error. -/
theorem scanLoop_error_eq {root : Path} {cutoff : Nat} :
    ∀ {l : List (Option ChildEntry)} {err : ScanError},
      scanLoop root cutoff l = .error err → err = .childEntryFailed := by
  intro l
  induction l with
  | nil => intro err h; cases h
  | cons y rest ih =>
    intro err h
    match y with
    | none =>
      rw [scanLoop] at h
      exact (((Except.error.injEq _ _).mp h)).symm
    | some e =>
      by_cases hdir : e.isDir = false
      · rw [scanLoop, if_pos hdir] at h
        exact ih h
      · by_cases hhid : startsWithDot e.name = true
        · rw [scanLoop, if_neg hdir, if_pos hhid] at h
          exact ih h
        · rcases hrec : scanLoop root cutoff rest with err2 | trip
          · rw [scanLoop, if_neg hdir, if_neg hhid, hrec] at h
            have h2 : err2 = err := (Except.error.injEq _ _).mp h
            exact h2 ▸ ih hrec
          · obtain ⟨s, f, c⟩ := trip
            rw [scanLoop_cons_ok hdir hhid hrec] at h
            by_cases hcl : effectiveMtime e ≤ cutoff
            · rw [if_pos hcl] at h; cases h
            · rw [if_neg hcl] at h; cases h

/-- The scanner's `unwrap_or_else`/`unwrap_or` chain computes exactly the
spec's ordered fallback chain. -/
theorem effectiveMtime_eq_fallbackChain (e : ChildEntry) :
    effectiveMtime e = fallbackChain e := by
  unfold effectiveMtime fallbackChain
  cases newest_mtime_in_tree e.tree with
  | some m => rfl
  | none => cases e.metaMtime with
    | some m => rfl
    | none => rfl

/-- C5: `avoid_collision(p)` returns `p` unchanged iff `p` does not exist;
otherwise it returns `p` with `_N` appended to the full path string, for
the smallest `N ≥ 1` whose candidate does not exist. -/
theorem avoid_collision_spec (fs : List Path) (p : Path) :
    (avoid_collision fs p = p ↔ p ∉ fs) ∧
    (p ∈ fs → ∃ N, 1 ≤ N ∧ avoid_collision fs p = Path.withSuffix p N ∧
      Path.withSuffix p N ∉ fs ∧ ∀ k, 1 ≤ k → k < N → Path.withSuffix p k ∈ fs) := by
  have main : p ∈ fs → ∃ N, 1 ≤ N ∧ avoid_collision fs p = Path.withSuffix p N ∧
      Path.withSuffix p N ∉ fs ∧ ∀ k, 1 ≤ k → k < N → Path.withSuffix p k ∈ fs := by
    intro hmem
    obtain ⟨N, hN1, hN2, hN3, hN4⟩ := avoidLoop_spec fs p (fs.length + 1) 1
      (exists_candidate_not_mem fs p 1)
    refine ⟨N, hN1, ?_, hN3, hN4⟩
    rw [avoid_collision, if_pos hmem]
    exact hN2
  refine ⟨⟨?_, ?_⟩, main⟩
  · intro heq hmem
    obtain ⟨N, _, h2, _, _⟩ := main hmem
    rw [heq] at h2
    exact Path.withSuffix_ne_self p N h2.symm
  · intro hnot
    rw [avoid_collision, if_neg hnot]

/-- Witness for C5 at a concrete filesystem: `a/b` and `a/b_1` exist, so
`avoid_collision` must skip to counter 2. -/
theorem avoid_collision_spec_witness :
    (["a", "b"] : Path) ∈ [(["a", "b"] : Path), ["a", "b_1"]] ∧
    ∃ N, 1 ≤ N ∧
      avoid_collision [(["a", "b"] : Path), ["a", "b_1"]] ["a", "b"] =
        Path.withSuffix ["a", "b"] N ∧
      Path.withSuffix ["a", "b"] N ∉ [(["a", "b"] : Path), ["a", "b_1"]] ∧
      ∀ k, 1 ≤ k → k < N →
        Path.withSuffix ["a", "b"] k ∈ [(["a", "b"] : Path), ["a", "b_1"]] :=
  ⟨by decide, (avoid_collision_spec [["a", "b"], ["a", "b_1"]] ["a", "b"]).2 (by decide)⟩

/-- C6: the tree-mtime resolver returns the maximum modification timestamp
over the successfully stat-ed entries visited by the depth-bounded walk
(at most 3 levels below the root, including the root), `none` exactly when
no visited entry was readable, is unaffected by anything below the depth
bound, and by its type never returns an error. -/
theorem newest_mtime_in_tree_spec (t : FsTree) :
    (newest_mtime_in_tree t = none ↔ visitedStats t = []) ∧
    (∀ m, newest_mtime_in_tree t = some m ↔
      (m ∈ visitedStats t ∧ ∀ x ∈ visitedStats t, x ≤ m)) ∧
    newest_mtime_in_tree t = newest_mtime_in_tree (truncateTree t 3) := by
  refine ⟨?_, ?_, ?_⟩
  · rw [newest_mtime_in_tree_eq_max?]
    exact List.max?_eq_none_iff
  · intro m
    rw [newest_mtime_in_tree_eq_max?]
    exact natMax?_eq_some_iff
  · unfold newest_mtime_in_tree
    rw [walkTree_truncate]

/-- C4: no planned move's source lies at or under the plan's destination
root, and when the destination root is the scanned root of the report (for
a report a successful scan produced), the plan has no moves at all. -/
theorem build_plan_no_move_from_under_dest (fs : List Path) (canonDest : Option Path)
    (dest_root : Path) (bucket : String) (report : ScanReport) :
    (∀ mv ∈ (build_archive_plan fs canonDest dest_root bucket report).moves,
        List.isPrefixOf (build_archive_plan fs canonDest dest_root bucket report).dest_root
          mv.«from» = false) ∧
    (∀ now canonRoot listing d,
        scan_projects now canonRoot listing d = .ok report →
        canonDest.getD dest_root = report.root →
        (build_archive_plan fs canonDest dest_root bucket report).moves = []) := by
  constructor
  · intro mv hmv
    have hmv2 : mv ∈ planMoves fs (canonDest.getD dest_root)
        (canonDest.getD dest_root ++ [bucket]) report.stale := hmv
    obtain ⟨item, _, hpre, heq⟩ := mem_planMoves hmv2
    rw [heq]
    exact hpre
  · intro now canonRoot listing d hscan hdest
    have hall : ∀ item ∈ report.stale,
        (canonDest.getD dest_root).isPrefixOf item.path = true := by
      intro item hitem
      obtain ⟨entries, e, _, _, _, _, hitem_eq⟩ :=
        scan_item_origin hscan item (Or.inl hitem)
      rw [hitem_eq, hdest]
      exact List.isPrefixOf_iff_prefix.mpr (List.prefix_append _ _)
    exact planMoves_nil_of_all_under hall

/-- Witness for C4's second part: a concrete successful scan with the
archive destination pointing at the scanned root yields an empty plan. -/
theorem build_plan_no_move_from_under_dest_witness :
    (build_archive_plan [] (some ["r"]) ["r"] "2026-02"
        ⟨["r"], 0, [⟨["r", "a"], 0⟩], [], 1⟩).moves = [] :=
  (build_plan_no_move_from_under_dest [] (some ["r"]) ["r"] "2026-02"
      ⟨["r"], 0, [⟨["r", "a"], 0⟩], [], 1⟩).2
    100000 (some ["r"])
    (some [some ⟨"a", true, .node (some 0) false [], none⟩]) 0 (by rfl) rfl

/-- C3 is violated by the code: with root children `A` and `A_1` both stale
and `d/2026-02/A` already existing at the destination, `build_archive_plan`
plans two moves onto the same destination `d/2026-02/A_1` — the Namer only
avoids collisions with existing filesystem entries, not between planned
moves. -/
theorem build_plan_duplicate_to :
    (build_archive_plan [["d", "2026-02", "A"]] (some ["d"]) ["d"] "2026-02"
        ⟨["r"], 30, [⟨["r", "A"], 0⟩, ⟨["r", "A_1"], 0⟩], [], 2⟩).moves =
      [⟨["r", "A"], ["d", "2026-02", "A_1"]⟩, ⟨["r", "A_1"], ["d", "2026-02", "A_1"]⟩] ∧
    ¬ ((build_archive_plan [["d", "2026-02", "A"]] (some ["d"]) ["d"] "2026-02"
        ⟨["r"], 30, [⟨["r", "A"], 0⟩, ⟨["r", "A_1"], 0⟩], [], 2⟩).moves.map
          (fun mv => mv.to)).Nodup := by
  constructor
  · decide
  · decide

/-- C1 (amended): `stale.len() + fresh.len() == scanned_count` always; and
provided the day-to-seconds conversion `d * 86400` does not overflow `u64`,
every stale item of a successful scan satisfies
`last_modified <= now - d` days and every fresh item the opposite. (When
the multiplication overflows, the scan classifies against the wrapped
cutoff instead; see the counterexample.) -/
theorem scan_partition (now : Nat) (canonRoot : Option Path)
    (listing : Option (List (Option ChildEntry))) (d : Nat) (r : ScanReport)
    (h : scan_projects now canonRoot listing d = .ok r) :
    (d * 86400 < 2 ^ 64 →
      (∀ item ∈ r.stale, item.last_modified + d * 86400 ≤ now) ∧
      (∀ item ∈ r.fresh, now < item.last_modified + d * 86400)) ∧
    r.stale.length + r.fresh.length = r.scanned_count := by
  obtain ⟨root, entries, hc, hl, hnn, hcut, hr⟩ := scan_projects_ok_inv h
  subst hr
  constructor
  · intro hov
    have hsecs : cutoffSecs d = d * 86400 := by
      unfold cutoffSecs
      rw [show d * 24 * 60 * 60 = d * 86400 by ring]
      exact Nat.mod_eq_of_lt hov
    constructor
    · intro item hitem
      simp only at hitem
      have h2 := mem_sortByMtime.mp hitem
      have h3 := (List.mem_filter.mp h2).2
      have h4 : item.last_modified ≤ now - cutoffSecs d := by simpa using h3
      rw [hsecs] at h4
      omega
    · intro item hitem
      simp only at hitem
      have h3 := (List.mem_filter.mp hitem).2
      have h4 : ¬ item.last_modified ≤ now - cutoffSecs d := by simpa using h3
      rw [hsecs] at h4
      rw [hsecs] at hcut
      omega
  · simp only
    rw [length_sortByMtime]
    have hpart := length_filter_partition
      (fun it => decide (it.last_modified ≤ now - cutoffSecs d))
      ((processedEntries entries).map (itemOf root))
    simp only [List.length_map] at hpart
    exact hpart

/-- Witness for C1 (amended) on a concrete two-child scan: one stale item
40 days old against a 1-day threshold, one fresh. -/
theorem scan_partition_witness :
    ((∀ item ∈ [(⟨["r", "old"], 100⟩ : ProjectItem)],
        item.last_modified + 1 * 86400 ≤ 200000) ∧
      (∀ item ∈ [(⟨["r", "new"], 150000⟩ : ProjectItem)],
        200000 < item.last_modified + 1 * 86400)) ∧
    ([(⟨["r", "old"], 100⟩ : ProjectItem)].length +
      [(⟨["r", "new"], 150000⟩ : ProjectItem)].length = 2) := by
  have h := scan_partition 200000 (some ["r"])
    (some [some ⟨"old", true, .node (some 100) false [], none⟩,
           some ⟨"new", true, .node (some 150000) false [], none⟩]) 1
    ⟨["r"], 1, [⟨["r", "old"], 100⟩], [⟨["r", "new"], 150000⟩], 2⟩ (by rfl)
  exact ⟨h.1 (by norm_num), h.2⟩

/-- C1 as stated is violated when `older_than_days * 86400` overflows
`u64`: the wrapped seconds value is tiny, the scan succeeds, and the stale
item does not satisfy `last_modified <= now - d` days (which is hugely
negative). -/
theorem scan_partition_counterexample :
    scan_projects 100000 (some ["r"])
        (some [some ⟨"a", true, .node (some 0) false [], some 0⟩]) 213503982334602 =
      .ok ⟨["r"], 213503982334602, [⟨["r", "a"], 0⟩], [], 1⟩ ∧
    ¬ (∀ item ∈ [(⟨["r", "a"], 0⟩ : ProjectItem)],
        (item.last_modified : Int) ≤ (100000 : Int) - 213503982334602 * 86400) := by
  constructor
  · rfl
  · decide

/-- C2 as stated is violated: an error yielded by the root listing's
iterator for a single child entry (the `let entry = entry?;` line) aborts
the whole scan, even though canonicalizing the root, computing the cutoff,
and opening the root listing all succeeded. -/
theorem scan_child_iter_error_aborts :
    scan_projects 100 (some ["r"]) (some [none]) 0 = .error .childEntryFailed := by
  rfl

/-- C2 (amended): per-child failures while inspecting children absorb into
the fallback chains and never abort the scan — whatever each child's
`is_dir` outcome, subtree stat outcomes, and metadata outcome are, the scan
succeeds, provided every listing entry was yielded without an iterator
error (an iterator `Err` for an entry is propagated by `entry?` and does
abort the scan; see the counterexample). -/
theorem scan_absorbs_child_inspection_failures (now : Nat) (root : Path)
    (entries : List (Option ChildEntry)) (d : Nat)
    (hok : ∀ x ∈ entries, x ≠ none) (hcut : cutoffSecs d ≤ now) :
    ∃ r, scan_projects now (some root) (some entries) d = .ok r :=
  ⟨_, scan_projects_eq now root entries d hok hcut⟩

/-- Witness for C2 (amended): a child whose every inspection syscall fails
(undeterminable kind, unreadable tree, failed metadata) does not abort the
scan. -/
theorem scan_absorbs_child_inspection_failures_witness :
    ∃ r, scan_projects 50 (some ["r"])
        (some [some ⟨"a", true, .node none false [], none⟩,
               some ⟨"b", false, .node none false [], none⟩]) 0 = .ok r :=
  scan_absorbs_child_inspection_failures 50 ["r"]
    [some ⟨"a", true, .node none false [], none⟩,
     some ⟨"b", false, .node none false [], none⟩] 0 (by simp) (by decide)

/-- C7: the executor processes moves in sequence order, ensuring each
destination's parent directory (and missing ancestors) before the rename;
the first failing move stops execution immediately, the returned error
identifies that move (directory creation or rename), the state reached
through the prior moves remains (no rollback), and the moves after the
failing one are never executed (the result does not depend on them). -/
theorem apply_plan_fail_fast {σ : Type} (ops : FsOps σ) (s s1 s2 : σ)
    (pre post : List ArchiveMove) (mv : ArchiveMove) (e : ExecError)
    (hpre : apply_archive_plan ops s pre = (s1, none))
    (hfail : applyMove ops s1 mv = (s2, some e)) :
    apply_archive_plan ops s (pre ++ mv :: post) = (s2, some e) ∧
      (e = .createDirFailed mv ∨ e = .renameFailed mv) :=
  ⟨apply_archive_plan_append_fail ops pre s s1 s2 mv post e hpre hfail,
   applyMove_error_identifies ops s1 mv hfail⟩

/-- A demonstration filesystem for the executor: the state logs performed
renames; directory creation always succeeds; renaming onto `locked`
fails. -/
def demoOps : FsOps (List (Path × Path)) :=
  ⟨fun st _ => (st, true),
   fun st f t => if t = ["locked"] then (st, false) else ((f, t) :: st, true)⟩

/-- Witness for C7, the spec's scenario: of three moves the second fails,
so move 1 is applied (logged in the state), moves 2 and 3 are not, and the
error identifies move 2. -/
theorem apply_plan_fail_fast_witness :
    apply_archive_plan demoOps []
        [⟨["a"], ["x", "a"]⟩, ⟨["b"], ["locked"]⟩, ⟨["c"], ["x", "c"]⟩] =
      ([((["a"] : Path), (["x", "a"] : Path))],
       some (.renameFailed ⟨["b"], ["locked"]⟩)) ∧
      ((ExecError.renameFailed ⟨["b"], ["locked"]⟩) =
          .createDirFailed ⟨["b"], ["locked"]⟩ ∨
        (ExecError.renameFailed ⟨["b"], ["locked"]⟩) =
          .renameFailed ⟨["b"], ["locked"]⟩) :=
  apply_plan_fail_fast demoOps [] [(["a"], ["x", "a"])] [(["a"], ["x", "a"])]
    [⟨["a"], ["x", "a"]⟩] [⟨["c"], ["x", "c"]⟩] ⟨["b"], ["locked"]⟩
    (.renameFailed ⟨["b"], ["locked"]⟩) (by rfl) (by rfl)

/-- C8: every scanned child's effective `last_modified` is determined by
the ordered fallback chain — the resolver's recursive maximum; if `none`,
the directory's own metadata modification time; if that also fails, the
oldest representable timestamp. -/
theorem scan_effective_mtime_fallback (now : Nat) (canon : Option Path)
    (listing : Option (List (Option ChildEntry))) (d : Nat) (r : ScanReport)
    (h : scan_projects now canon listing d = .ok r) :
    ∀ item, (item ∈ r.stale ∨ item ∈ r.fresh) →
      ∃ entries e, listing = some entries ∧ some e ∈ entries ∧
        item.path = r.root ++ [e.name] ∧ item.last_modified = fallbackChain e := by
  intro item hitem
  obtain ⟨entries, e, hl, hmem, _, _, heq⟩ := scan_item_origin h item hitem
  refine ⟨entries, e, hl, hmem, ?_, ?_⟩
  · rw [heq]
    rfl
  · rw [heq]
    exact effectiveMtime_eq_fallbackChain e

/-- Witness for C8: a child whose tree walk finds nothing but whose own
metadata reads 7 gets `last_modified = 7` through the middle link of the
chain. -/
theorem scan_effective_mtime_fallback_witness :
    ∃ entries e,
      (some [some (⟨"a", true, .node none false [], some 7⟩ : ChildEntry)] =
        some entries) ∧
      some e ∈ entries ∧
      ((⟨["r", "a"], 7⟩ : ProjectItem).path = ["r"] ++ [e.name]) ∧
      ((⟨["r", "a"], 7⟩ : ProjectItem).last_modified = fallbackChain e) :=
  scan_effective_mtime_fallback 50 (some ["r"])
    (some [some ⟨"a", true, .node none false [], some 7⟩]) 0
    ⟨["r"], 0, [⟨["r", "a"], 7⟩], [], 1⟩ (by rfl)
    ⟨["r", "a"], 7⟩ (Or.inl (by simp))

/-- C9: no hidden child (name starting with a dot) appears among a
successful scan's stale or fresh items, and `scanned_count` counts exactly
the non-hidden directory children (so hidden children are not counted). -/
theorem scan_skips_hidden (now : Nat) (root : Path)
    (entries : List (Option ChildEntry)) (d : Nat) (r : ScanReport)
    (h : scan_projects now (some root) (some entries) d = .ok r) :
    (∀ item, (item ∈ r.stale ∨ item ∈ r.fresh) →
      ∃ name, item.path.getLast? = some name ∧ startsWithDot name = false) ∧
    r.scanned_count = (processedEntries entries).length := by
  constructor
  · intro item hitem
    obtain ⟨entries2, e, hl, _, _, hhid, heq⟩ := scan_item_origin h item hitem
    refine ⟨e.name, ?_, hhid⟩
    rw [heq]
    exact List.getLast?_concat _
  · obtain ⟨root2, entries2, hc, hl, hnn, hcut, hr⟩ := scan_projects_ok_inv h
    obtain rfl : root = root2 := by injection hc
    obtain rfl : entries = entries2 := by injection hl
    rw [hr]

/-- Witness for C9: a hidden `.git` child is neither reported nor counted —
the scan of one hidden and one visible directory counts 1. -/
theorem scan_skips_hidden_witness :
    (1 : Nat) = (processedEntries
      [some ⟨".git", true, .node (some 0) false [], none⟩,
       some ⟨"a", true, .node (some 0) false [], none⟩]).length :=
  (scan_skips_hidden 50 ["r"]
    [some ⟨".git", true, .node (some 0) false [], none⟩,
     some ⟨"a", true, .node (some 0) false [], none⟩] 0
    ⟨["r"], 0, [⟨["r", "a"], 0⟩], [], 1⟩ (by rfl)).2

/-- C10: the cutoff is an unchecked `u64` multiplication followed by a
checked subtraction. Below the overflow bound `u64::MAX / 86400` the
product is exact and the scan fails with the cutoff error exactly when the
subtraction from `now` underflows; above the bound the mathematical
product exceeds `u64::MAX`, i.e. the multiplication itself overflows
before the guarded subtraction is reached. -/
theorem scan_cutoff_arithmetic (now : Nat) (root : Path)
    (listing : Option (List (Option ChildEntry))) (d : Nat) :
    (d ≤ (2 ^ 64 - 1) / 86400 →
      d * 24 * 60 * 60 < 2 ^ 64 ∧
      cutoffSecs d = d * 24 * 60 * 60 ∧
      (scan_projects now (some root) listing d = .error .computeCutoff ↔
        now < d * 24 * 60 * 60)) ∧
    ((2 ^ 64 - 1) / 86400 < d → 2 ^ 64 ≤ d * 24 * 60 * 60) := by
  have hmul : d * 24 * 60 * 60 = d * 86400 := by ring
  constructor
  · intro hd
    have hlt : d * 86400 < 2 ^ 64 := by
      have h1 : d * 86400 ≤ ((2 ^ 64 - 1) / 86400) * 86400 :=
        Nat.mul_le_mul_right _ hd
      have h2 : ((2 ^ 64 - 1) / 86400) * 86400 ≤ 2 ^ 64 - 1 :=
        Nat.div_mul_le_self _ _
      have h3 : (0 : Nat) < 2 ^ 64 := by positivity
      omega
    have hsecs : cutoffSecs d = d * 24 * 60 * 60 := by
      unfold cutoffSecs
      rw [hmul]
      exact Nat.mod_eq_of_lt hlt
    refine ⟨hmul ▸ hlt, hsecs, ?_, ?_⟩
    · intro herr
      by_contra hge
      rcases listing with _ | entries
      · simp only [scan_projects] at herr
        rw [hsecs, if_neg hge] at herr
        cases herr
      · simp only [scan_projects] at herr
        rw [hsecs, if_neg hge] at herr
        rcases hrec : scanLoop root (now - d * 24 * 60 * 60) entries with err | trip
        · rw [hrec] at herr
          have h4 := scanLoop_error_eq hrec
          rw [h4] at herr
          cases herr
        · obtain ⟨s, f, c⟩ := trip
          rw [hrec] at herr
          cases herr
    · intro hlt2
      simp only [scan_projects]
      rw [hsecs, if_pos hlt2]
  · intro hd
    have hp : (2 : Nat) ^ 64 = 18446744073709551616 := by norm_num
    have hd2 : 213503982334602 ≤ d := by
      rw [hp] at hd
      norm_num at hd
      omega
    have h2 : 213503982334602 * 86400 ≤ d * 86400 :=
      Nat.mul_le_mul_right _ hd2
    rw [hmul]
    omega

/-- Witness for C10 at both sides of the overflow bound: `d = 1` hits the
underflow error for `now = 0`, and `d = u64::MAX / 86400 + 1` makes the
mathematical product exceed `u64::MAX`. -/
theorem scan_cutoff_arithmetic_witness :
    (scan_projects 0 (some ["r"]) (some []) 1 = .error .computeCutoff ↔
      (0 : Nat) < 1 * 24 * 60 * 60) ∧
    2 ^ 64 ≤ 213503982334602 * 24 * 60 * 60 :=
  ⟨((scan_cutoff_arithmetic 0 ["r"] (some []) 1).1 (by norm_num)).2.2,
   (scan_cutoff_arithmetic 0 ["r"] (some []) 213503982334602).2 (by norm_num)⟩

end Sweeper
